import Mathlib

/-!
Verification development for the `hashing` repository.

The core under verification is the `sha1_smol` module of `src/lib.rs`: a
from-scratch incremental SHA-1 digest engine (block compression, buffering,
padding, length encoding), plus the `Algorithm` name table used by
`hash_bytes`.  Machine integers (`u32`, `u64`) are modelled as `Nat` with
explicit reduction modulo `2 ^ 32` / `2 ^ 64` at every wrapping operation;
byte buffers are `List Nat`.  The Rust `while` loops of `update` and
`digest` are rendered as fuel-indexed structural recursions, with the fuel
chosen to be provably sufficient, so that every definition evaluates inside
the kernel.
-/

set_option maxHeartbeats 1000000
set_option maxRecDepth 8000

namespace sha1_smol

/-- Left rotation of a 32-bit word, as `u32::rotate_left`. -/
def rotl32 (x n : Nat) : Nat := ((x <<< n) % 2 ^ 32) ||| (x >>> (32 - n))

/-- Big-endian 32-bit word extraction, as `u32::from_be_bytes` applied to the
four bytes of `block` starting at offset `4 * i` (`process_block`, first loop). -/
def wordBE (block : List Nat) (i : Nat) : Nat :=
  block.getD (4 * i) 0 * 2 ^ 24 + block.getD (4 * i + 1) 0 * 2 ^ 16 +
    block.getD (4 * i + 2) 0 * 2 ^ 8 + block.getD (4 * i + 3) 0

/-- Next entry of the message schedule: with `w` holding entries `0..w.length`,
this is `(w[i-3] ^ w[i-8] ^ w[i-14] ^ w[i-16]).rotate_left(1)` at `i = w.length`
(`process_block`, second loop body). -/
def nextW (w : List Nat) : Nat :=
  rotl32 (w.getD (w.length - 3) 0 ^^^ w.getD (w.length - 8) 0 ^^^
    w.getD (w.length - 14) 0 ^^^ w.getD (w.length - 16) 0) 1

/-- Message schedule of `process_block`: sixteen big-endian words extended to
eighty entries by the second loop. -/
def buildW (block : List Nat) : List Nat :=
  (List.range 64).foldl (fun w _ => w ++ [nextW w]) ((List.range 16).map (wordBE block))

/-- Round function and constant selection of `process_block`
(the `match i { 0..=19 => .., 20..=39 => .., 40..=59 => .., _ => .. }`).
Rust `!b` on `u32` is `b ^^^ 0xFFFFFFFF`. -/
def roundFK (i b c d : Nat) : Nat × Nat :=
  if i ≤ 19 then ((b &&& c) ||| ((b ^^^ 0xFFFFFFFF) &&& d), 0x5A827999)
  else if i ≤ 39 then (b ^^^ c ^^^ d, 0x6ED9EBA1)
  else if i ≤ 59 then ((b &&& c) ||| (b &&& d) ||| (c &&& d), 0x8F1BBCDC)
  else (b ^^^ c ^^^ d, 0xCA62C1D6)

/-- One iteration of the 80-round loop of `process_block`:
`temp = a.rotate_left(5) + f + e + k + w[i]` with wrapping additions, then
`e = d; d = c; c = b.rotate_left(30); b = a; a = temp`. -/
def roundStep (w : List Nat) (st : Nat × Nat × Nat × Nat × Nat) (i : Nat) :
    Nat × Nat × Nat × Nat × Nat :=
  let (a, b, c, d, e) := st
  let fk := roundFK i b c d
  let temp := (rotl32 a 5 + fk.1 + e + fk.2 + w.getD i 0) % 2 ^ 32
  (temp, a, rotl32 b 30, c, d)

/-- The SHA-1 block compression `Sha1::process_block`: build the schedule, run
eighty rounds from the current state, then add the working variables back into
the state with wrapping additions. -/
def processBlock (h block : List Nat) : List Nat :=
  let w := buildW block
  let st := (List.range 80).foldl (roundStep w)
    (h.getD 0 0, h.getD 1 0, h.getD 2 0, h.getD 3 0, h.getD 4 0)
  [(h.getD 0 0 + st.1) % 2 ^ 32, (h.getD 1 0 + st.2.1) % 2 ^ 32,
    (h.getD 2 0 + st.2.2.1) % 2 ^ 32, (h.getD 3 0 + st.2.2.2.1) % 2 ^ 32,
    (h.getD 4 0 + st.2.2.2.2) % 2 ^ 32]

/-- State of the incremental engine `sha1_smol::Sha1`:
`h: [u32; 5]`, `len: u64`, `buffer: Vec<u8>`. -/
structure Sha1 where
  h : List Nat
  len : Nat
  buffer : List Nat
deriving DecidableEq

/-- The constructor `Sha1::new`. -/
def Sha1.new : Sha1 :=
  ⟨[0x67452301, 0xEFCDAB89, 0x98BADCFE, 0x10325476, 0xC3D2E1F0], 0, []⟩

/-- Fuel-indexed rendering of the `while self.buffer.len() >= 64` loop of
`Sha1::update`: drain the first 64 bytes and process them as a block. -/
def drainGo : Nat → List Nat → List Nat → List Nat × List Nat
  | 0, h, buf => (h, buf)
  | fuel + 1, h, buf =>
    if 64 ≤ buf.length then drainGo fuel (processBlock h (buf.take 64)) (buf.drop 64)
    else (h, buf)

/-- The draining loop of `Sha1::update`, run with sufficient fuel
(each iteration removes 64 bytes, so `buf.length` iterations always suffice). -/
def drain (h buf : List Nat) : List Nat × List Nat := drainGo buf.length h buf

/-- The method `Sha1::update`: append the data to the buffer, bump the 64-bit byte
counter (wrapping), then drain full 64-byte blocks. -/
def Sha1.update (s : Sha1) (data : List Nat) : Sha1 :=
  let buf := s.buffer ++ data
  let hb := drain s.h buf
  ⟨hb.1, (s.len + data.length) % 2 ^ 64, hb.2⟩

/-- Fuel-indexed rendering of the `while (self.buffer.len() % 64) != 56` loop
of `Sha1::digest`, pushing zero bytes. -/
def padGo : Nat → List Nat → List Nat
  | 0, buf => buf
  | fuel + 1, buf => if buf.length % 64 = 56 then buf else padGo fuel (buf ++ [0])

/-- Big-endian byte serialization of a 64-bit value, as `u64::to_be_bytes`. -/
def be64 (v : Nat) : List Nat :=
  [v / 2 ^ 56 % 256, v / 2 ^ 48 % 256, v / 2 ^ 40 % 256, v / 2 ^ 32 % 256,
    v / 2 ^ 24 % 256, v / 2 ^ 16 % 256, v / 2 ^ 8 % 256, v % 256]

/-- Big-endian byte serialization of a 32-bit value, as `u32::to_be_bytes`. -/
def be32 (v : Nat) : List Nat :=
  [v / 2 ^ 24 % 256, v / 2 ^ 16 % 256, v / 2 ^ 8 % 256, v % 256]

/-- Fuel-indexed rendering of the `while !self.buffer.is_empty()` loop of
`Sha1::digest`, draining 64 bytes per iteration. -/
def processRemGo : Nat → List Nat → List Nat → List Nat
  | 0, h, _ => h
  | fuel + 1, h, buf =>
    if buf.isEmpty then h
    else processRemGo fuel (processBlock h (buf.take 64)) (buf.drop 64)

/-- The result type `sha1_smol::Sha1Digest`. -/
structure Sha1Digest where
  h : List Nat
deriving DecidableEq

/-- The method `Sha1::digest`: compute the wrapped bit length, push `0x80`, pad with
zeros until the length is 56 mod 64, append the big-endian bit length, and
process the remaining buffer as consecutive 64-byte blocks.  Padding needs at
most 63 zero bytes, so fuel 64 suffices for the padding loop. -/
def Sha1.digest (s : Sha1) : Sha1Digest :=
  let lenBits := s.len * 8 % 2 ^ 64
  let buf := padGo 64 (s.buffer ++ [0x80])
  let buf := buf ++ be64 lenBits
  ⟨processRemGo buf.length s.h buf⟩

/-- The method `Sha1Digest::bytes`: the five state words serialized big-endian and
concatenated. -/
def Sha1Digest.bytes (d : Sha1Digest) : List Nat := (d.h.map be32).flatten

end sha1_smol

/-- Nibble-to-character table for lowercase hexadecimal rendering
(the behaviour of `hex::encode`). -/
def hexChars : List Char := "0123456789abcdef".data

/-- Lowercase hexadecimal rendering of a byte list, as `hex::encode`. -/
def hexEncode (bytes : List Nat) : String :=
  String.mk ((bytes.map (fun b => [hexChars.getD (b / 16) '0', hexChars.getD (b % 16) '0'])).flatten)

/-- The `Algorithm::Sha1` arm of `hash_bytes`: create the engine, feed all
the data in one `update`, finalize, and hex-encode; always returns `Ok`. -/
def hashBytesSha1 (data : List Nat) : Except String String :=
  Except.ok (hexEncode ((sha1_smol.Sha1.new.update data).digest.bytes))

namespace SpecModel

/-- Spec-side word extraction (block algorithm step 1): the block is split
into sixteen 32-bit big-endian words; written in Horner form to keep the
definition independent of the source-side rendering. -/
def wordBE (block : List Nat) (i : Nat) : Nat :=
  [block.getD (4 * i) 0, block.getD (4 * i + 1) 0, block.getD (4 * i + 2) 0,
    block.getD (4 * i + 3) 0].foldl (fun acc b => acc * 256 + b) 0

/-- Spec-side message schedule (block algorithm step 2): for `i` in `16..80`,
`w[i] = rotateLeft(w[i-3] xor w[i-8] xor w[i-14] xor w[i-16], 1)`. -/
def w (block : List Nat) (i : Nat) : Nat :=
  if i < 16 then wordBE block i
  else sha1_smol.rotl32
    (w block (i - 3) ^^^ w block (i - 8) ^^^ w block (i - 14) ^^^ w block (i - 16)) 1
termination_by i
decreasing_by all_goals omega

/-- Spec-side round function selection (block algorithm step 4). -/
def f (i b c d : Nat) : Nat :=
  if i ≤ 19 then (b &&& c) ||| ((b ^^^ 0xFFFFFFFF) &&& d)
  else if i ≤ 39 then b ^^^ c ^^^ d
  else if i ≤ 59 then (b &&& c) ||| (b &&& d) ||| (c &&& d)
  else b ^^^ c ^^^ d

/-- Spec-side round constant selection (block algorithm step 4). -/
def k (i : Nat) : Nat :=
  if i ≤ 19 then 0x5A827999
  else if i ≤ 39 then 0x6ED9EBA1
  else if i ≤ 59 then 0x8F1BBCDC
  else 0xCA62C1D6

/-- Spec-side working variables after `n` rounds (block algorithm steps 3-4):
`temp = rotateLeft(a,5) + f + e + k + w[i]` modulo `2 ^ 32`, then
`e = d; d = c; c = rotateLeft(b,30); b = a; a = temp`. -/
def rounds (block : List Nat) (st : Nat × Nat × Nat × Nat × Nat) :
    Nat → Nat × Nat × Nat × Nat × Nat
  | 0 => st
  | i + 1 =>
    let (a, b, c, d, e) := rounds block st i
    ((sha1_smol.rotl32 a 5 + f i b c d + e + k i + w block i) % 2 ^ 32,
      a, sha1_smol.rotl32 b 30, c, d)

/-- Spec-side block compression: eighty rounds from the current state, then
the working variables are added modulo `2 ^ 32` back into the five state
words in order (block algorithm step 5). -/
def processBlock (h block : List Nat) : List Nat :=
  let st := rounds block (h.getD 0 0, h.getD 1 0, h.getD 2 0, h.getD 3 0, h.getD 4 0) 80
  [(h.getD 0 0 + st.1) % 2 ^ 32, (h.getD 1 0 + st.2.1) % 2 ^ 32,
    (h.getD 2 0 + st.2.2.1) % 2 ^ 32, (h.getD 3 0 + st.2.2.2.1) % 2 ^ 32,
    (h.getD 4 0 + st.2.2.2.2) % 2 ^ 32]

/-- Splitting a buffer into consecutive 64-byte blocks. -/
def chunks64 (l : List Nat) : List (List Nat) :=
  if h : l = [] then [] else l.take 64 :: chunks64 (l.drop 64)
termination_by l.length
decreasing_by
  simp only [List.length_drop]
  have := List.length_pos.mpr h
  omega

/-- Number of zero bytes the spec's padding rule appends to a buffer of
length `n` (already including the `0x80` byte) to reach length 56 mod 64. -/
def padCount (n : Nat) : Nat := (56 + 64 - n % 64) % 64

/-- Spec-side finalization: append `0x80`, zero bytes until the length is 56
mod 64, and the big-endian 64-bit bit length; process the result as
consecutive 64-byte blocks through the same block algorithm used by `feed`;
serialize the five final state words big-endian and concatenate. -/
def digestBytes (s : sha1_smol.Sha1) : List Nat :=
  let padded := s.buffer ++ [0x80] ++ List.replicate (padCount (s.buffer.length + 1)) 0 ++
    sha1_smol.be64 (s.len * 8 % 2 ^ 64)
  (((chunks64 padded).foldl sha1_smol.processBlock s.h).map sha1_smol.be32).flatten

end SpecModel

/-- The `Algorithm` enum of `src/lib.rs`. -/
inductive Algorithm where
  | Md5 | Sha1 | Sha224 | Sha256 | Sha384 | Sha512 | Sha512_224 | Sha512_256
  | Sha3_224 | Sha3_256 | Sha3_384 | Sha3_512
  | Blake2b512 | Blake2s256 | Blake3
  | Keccak224 | Keccak256 | Keccak384 | Keccak512
deriving DecidableEq

/-- The method `Algorithm::name`. -/
def Algorithm.name : Algorithm → String
  | .Md5 => "md5"
  | .Sha1 => "sha1"
  | .Sha224 => "sha224"
  | .Sha256 => "sha256"
  | .Sha384 => "sha384"
  | .Sha512 => "sha512"
  | .Sha512_224 => "sha512-224"
  | .Sha512_256 => "sha512-256"
  | .Sha3_224 => "sha3-224"
  | .Sha3_256 => "sha3-256"
  | .Sha3_384 => "sha3-384"
  | .Sha3_512 => "sha3-512"
  | .Blake2b512 => "blake2b"
  | .Blake2s256 => "blake2s"
  | .Blake3 => "blake3"
  | .Keccak224 => "keccak224"
  | .Keccak256 => "keccak256"
  | .Keccak384 => "keccak384"
  | .Keccak512 => "keccak512"

/-- ASCII lowercasing of one character, the behaviour of `str::to_lowercase`
on the ASCII range (every pattern of `Algorithm::from_str` is ASCII). -/
def lowerChar (c : Char) : Char :=
  if 65 ≤ c.toNat ∧ c.toNat ≤ 90 then Char.ofNat (c.toNat + 32) else c

/-- ASCII lowercasing of a string, as `str::to_lowercase` on ASCII input. -/
def lowerStr (s : String) : String := String.mk (s.data.map lowerChar)

/-- The `FromStr` implementation `Algorithm::from_str`: lowercase the input,
then match it against the name table; unknown names give
`HashError::UnsupportedAlgorithm` (modelled as `Except.error`). -/
def Algorithm.fromStr (s : String) : Except String Algorithm :=
  match lowerStr s with
  | "md5" => .ok .Md5
  | "sha1" => .ok .Sha1
  | "sha224" => .ok .Sha224
  | "sha256" => .ok .Sha256
  | "sha384" => .ok .Sha384
  | "sha512" => .ok .Sha512
  | "sha512-224" | "sha512_224" => .ok .Sha512_224
  | "sha512-256" | "sha512_256" => .ok .Sha512_256
  | "sha3-224" | "sha3_224" => .ok .Sha3_224
  | "sha3-256" | "sha3_256" => .ok .Sha3_256
  | "sha3-384" | "sha3_384" => .ok .Sha3_384
  | "sha3-512" | "sha3_512" => .ok .Sha3_512
  | "blake2b" | "blake2b512" => .ok .Blake2b512
  | "blake2s" | "blake2s256" => .ok .Blake2s256
  | "blake3" => .ok .Blake3
  | "keccak224" => .ok .Keccak224
  | "keccak256" => .ok .Keccak256
  | "keccak384" => .ok .Keccak384
  | "keccak512" => .ok .Keccak512
  | _ => .error s

namespace sha1_smol

/-- Running the drain loop with any two sufficient fuels gives the same
result: each iteration removes 64 bytes, so `buf.length` iterations
always finish the loop. -/
theorem drainGo_congr (f₁ : Nat) : ∀ (f₂ : Nat) (h buf : List Nat),
    buf.length ≤ f₁ → buf.length ≤ f₂ → drainGo f₁ h buf = drainGo f₂ h buf := by
  induction f₁ with
  | zero =>
    intro f₂ h buf h1 _
    have hb : buf = [] := List.eq_nil_of_length_eq_zero (Nat.le_zero.mp h1)
    subst hb
    cases f₂ <;> simp [drainGo]
  | succ f₁ ih =>
    intro f₂ h buf h1 h2
    cases f₂ with
    | zero =>
      have hb : buf = [] := List.eq_nil_of_length_eq_zero (Nat.le_zero.mp h2)
      subst hb
      simp [drainGo]
    | succ f₂ =>
      simp only [drainGo]
      split
      · next hge =>
        apply ih
        · simp only [List.length_drop]; omega
        · simp only [List.length_drop]; omega
      · rfl

/-- One-step unfolding of the drain loop of `update`. -/
theorem drain_unfold (h buf : List Nat) :
    drain h buf =
      if 64 ≤ buf.length then drain (processBlock h (buf.take 64)) (buf.drop 64)
      else (h, buf) := by
  by_cases hge : 64 ≤ buf.length
  · rw [if_pos hge]
    obtain ⟨n, hn⟩ : ∃ n, buf.length = n + 1 := ⟨buf.length - 1, by omega⟩
    unfold drain
    rw [hn]
    simp only [drainGo, if_pos hge]
    apply drainGo_congr
    · simp only [List.length_drop]; omega
    · exact Nat.le_refl _
  · rw [if_neg hge]
    unfold drain
    cases hb : buf.length with
    | zero => simp [drainGo]
    | succ n => simp only [drainGo]; rw [if_neg (by omega)]

/-- After the drain loop of `update` finishes, fewer than 64 bytes remain. -/
theorem drain_snd_lt (h buf : List Nat) : (drain h buf).2.length < 64 := by
  generalize hn : buf.length = n
  induction n using Nat.strong_induction_on generalizing h buf with
  | _ n ih =>
    rw [drain_unfold]
    by_cases hge : 64 ≤ buf.length
    · rw [if_pos hge]
      exact ih ((buf.drop 64).length) (by simp only [List.length_drop]; omega) _ _ rfl
    · rw [if_neg hge]
      simp only []
      omega

/-- Draining, then appending more data and draining again, is the same as
draining the concatenation: the streaming lemma behind chunk-invariance. -/
theorem drain_append (h buf extra : List Nat) :
    drain (drain h buf).1 ((drain h buf).2 ++ extra) = drain h (buf ++ extra) := by
  generalize hn : buf.length = n
  induction n using Nat.strong_induction_on generalizing h buf with
  | _ n ih =>
    by_cases hge : 64 ≤ buf.length
    · rw [drain_unfold h buf, if_pos hge]
      rw [drain_unfold h (buf ++ extra),
        if_pos (by simp only [List.length_append]; omega)]
      rw [List.take_append_of_le_length (by omega), List.drop_append_of_le_length (by omega)]
      exact ih ((buf.drop 64).length) (by simp only [List.length_drop]; omega) _ _ rfl
    · rw [drain_unfold h buf, if_neg hge]

/-- The block compression returns exactly five state words. -/
theorem processBlock_length (h block : List Nat) : (processBlock h block).length = 5 := rfl

/-- The drain loop preserves the five-word shape of the state. -/
theorem drain_fst_length (h buf : List Nat) (hh : h.length = 5) :
    (drain h buf).1.length = 5 := by
  generalize hn : buf.length = n
  induction n using Nat.strong_induction_on generalizing h buf with
  | _ n ih =>
    rw [drain_unfold]
    by_cases hge : 64 ≤ buf.length
    · rw [if_pos hge]
      exact ih ((buf.drop 64).length) (by simp only [List.length_drop]; omega) _ _
        (processBlock_length _ _) rfl
    · rw [if_neg hge]
      exact hh

end sha1_smol

namespace sha1_smol

/-- Two consecutive `update` calls are the same as one `update` of the
concatenated data. -/
theorem update_update (s : Sha1) (a b : List Nat) :
    (s.update a).update b = s.update (a ++ b) := by
  have hd := drain_append s.h (s.buffer ++ a) b
  rw [List.append_assoc] at hd
  simp only [Sha1.update, Sha1.mk.injEq]
  refine ⟨congrArg Prod.fst hd, ?_, congrArg Prod.snd hd⟩
  rw [Nat.mod_add_mod, List.length_append, Nat.add_assoc]

/-- Feeding a list of chunks one `update` at a time equals one `update` of
their concatenation. -/
theorem foldl_update_eq (ps : List (List Nat)) : ∀ (s : Sha1) (p : List Nat),
    ps.foldl Sha1.update (s.update p) = s.update (p ++ ps.flatten) := by
  induction ps with
  | nil => intro s p; simp
  | cons q ps ih =>
    intro s p
    simp only [List.foldl_cons, List.flatten_cons]
    rw [ih (s.update p) q, update_update]

/-- The byte counter after a sequence of `update` calls is the total number
of bytes fed, reduced modulo `2 ^ 64`. -/
theorem foldl_update_len (ds : List (List Nat)) : ∀ (s : Sha1), s.len < 2 ^ 64 →
    (ds.foldl Sha1.update s).len = (s.len + (ds.map List.length).sum) % 2 ^ 64 := by
  induction ds with
  | nil =>
    intro s hs
    simp only [List.foldl_nil, List.map_nil, List.sum_nil, Nat.add_zero]
    exact (Nat.mod_eq_of_lt hs).symm
  | cons d ds ih =>
    intro s hs
    simp only [List.foldl_cons, List.map_cons, List.sum_cons]
    rw [ih (s.update d) (Nat.mod_lt _ (by positivity))]
    show ((s.len + d.length) % 2 ^ 64 + _) % 2 ^ 64 = _
    rw [Nat.mod_add_mod, Nat.add_assoc]

/-- The final processing loop of `digest` preserves the five-word shape. -/
theorem processRemGo_length (fuel : Nat) : ∀ (h buf : List Nat), h.length = 5 →
    (processRemGo fuel h buf).length = 5 := by
  induction fuel with
  | zero => intro h buf hh; exact hh
  | succ fuel ih =>
    intro h buf hh
    simp only [processRemGo]
    split
    · exact hh
    · exact ih _ _ (processBlock_length _ _)

/-- The zero-padding loop of `digest` appends exactly
`SpecModel.padCount buf.length` zero bytes, given enough fuel. -/
theorem padGo_eq (k : Nat) : ∀ (fuel : Nat) (buf : List Nat),
    SpecModel.padCount buf.length = k → k ≤ fuel →
    padGo fuel buf = buf ++ List.replicate k 0 := by
  induction k with
  | zero =>
    intro fuel buf hk _
    have h56 : buf.length % 64 = 56 := by
      unfold SpecModel.padCount at hk; omega
    cases fuel with
    | zero => simp [padGo]
    | succ fuel => simp [padGo, h56]
  | succ k ih =>
    intro fuel buf hk hfuel
    have h56 : buf.length % 64 ≠ 56 := by
      unfold SpecModel.padCount at hk; omega
    cases fuel with
    | zero => omega
    | succ fuel =>
      simp only [padGo, if_neg h56]
      rw [ih fuel (buf ++ [0])
        (by
          unfold SpecModel.padCount at hk ⊢
          simp only [List.length_append, List.length_cons, List.length_nil]
          omega)
        (by omega)]
      simp [List.replicate_succ, List.append_assoc]

/-- The final processing loop of `digest` is a fold of the block compression
over the consecutive 64-byte chunks of the buffer. -/
theorem processRemGo_eq_chunks (fuel : Nat) : ∀ (h buf : List Nat), buf.length ≤ fuel →
    processRemGo fuel h buf = (SpecModel.chunks64 buf).foldl processBlock h := by
  induction fuel with
  | zero =>
    intro h buf hb
    have : buf = [] := List.eq_nil_of_length_eq_zero (Nat.le_zero.mp hb)
    subst this
    rw [SpecModel.chunks64]
    simp [processRemGo]
  | succ fuel ih =>
    intro h buf hb
    by_cases hemp : buf = []
    · subst hemp
      rw [SpecModel.chunks64]
      simp [processRemGo]
    · rw [SpecModel.chunks64, dif_neg hemp]
      simp only [processRemGo, List.foldl_cons]
      rw [if_neg (by simpa [List.isEmpty_iff] using hemp)]
      exact ih _ _ (by
        simp only [List.length_drop]
        have := List.length_pos.mpr hemp
        omega)

end sha1_smol

/-- The source-side and spec-side big-endian word extractions agree. -/
theorem wordBE_eq (block : List Nat) (i : Nat) :
    sha1_smol.wordBE block i = SpecModel.wordBE block i := by
  simp only [sha1_smol.wordBE, SpecModel.wordBE, List.foldl_cons, List.foldl_nil]
  ring

/-- Invariant of the schedule-extension loop: after `k` iterations the list
has `16 + k` entries and they agree with the spec-side schedule `SpecModel.w`. -/
theorem extendW_invariant (block : List Nat) (k : Nat) :
    ((List.range k).foldl (fun w _ => w ++ [sha1_smol.nextW w])
        ((List.range 16).map (sha1_smol.wordBE block))).length = 16 + k ∧
    ∀ j, j < 16 + k →
      ((List.range k).foldl (fun w _ => w ++ [sha1_smol.nextW w])
          ((List.range 16).map (sha1_smol.wordBE block))).getD j 0 = SpecModel.w block j := by
  induction k with
  | zero =>
    simp only [List.range_zero, List.foldl_nil]
    refine ⟨by simp, ?_⟩
    intro j hj
    rw [List.getD_eq_getElem _ _ (by simpa using hj)]
    simp only [List.getElem_map, List.getElem_range]
    rw [SpecModel.w, if_pos (by omega)]
    exact wordBE_eq block j
  | succ k ih =>
    obtain ⟨ihlen, ihget⟩ := ih
    rw [show List.range (k + 1) = List.range k ++ [k] from List.range_succ k,
      List.foldl_append, List.foldl_cons, List.foldl_nil]
    constructor
    · simp only [List.length_append, ihlen, List.length_cons, List.length_nil]
      omega
    · intro j hj
      by_cases hjk : j < 16 + k
      · rw [List.getD_append _ _ _ _ (by omega)]
        exact ihget j hjk
      · have hj' : j = 16 + k := by omega
        subst hj'
        rw [List.getD_append_right _ _ _ _ (by omega)]
        rw [ihlen, Nat.sub_self]
        show sha1_smol.nextW _ = SpecModel.w block (16 + k)
        rw [sha1_smol.nextW, ihlen]
        rw [ihget (16 + k - 3) (by omega), ihget (16 + k - 8) (by omega),
          ihget (16 + k - 14) (by omega), ihget (16 + k - 16) (by omega)]
        conv_rhs => rw [SpecModel.w]
        rw [if_neg (by omega)]

/-- The eighty-entry schedule built by the source loops agrees pointwise with
the spec-side recursive schedule. -/
theorem buildW_getD (block : List Nat) (j : Nat) (hj : j < 80) :
    (sha1_smol.buildW block).getD j 0 = SpecModel.w block j :=
  (extendW_invariant block 64).2 j (by omega)

/-- Folding over `List.range (n + 1)` is one more step after folding over
`List.range n`. -/
theorem foldl_range_succ_eq {α : Type} (f : α → Nat → α) (init : α) (n : Nat) :
    (List.range (n + 1)).foldl f init = f ((List.range n).foldl f init) n := by
  rw [List.range_succ, List.foldl_append, List.foldl_cons, List.foldl_nil]

/-- The round loop of the source agrees with the spec-side round recursion
for every number of rounds up to eighty. -/
theorem rounds_eq (block : List Nat) (st : Nat × Nat × Nat × Nat × Nat) :
    ∀ n, n ≤ 80 →
      (List.range n).foldl (sha1_smol.roundStep (sha1_smol.buildW block)) st =
        SpecModel.rounds block st n := by
  intro n
  induction n with
  | zero => intro _; rfl
  | succ n ih =>
    intro hn
    rw [foldl_range_succ_eq, ih (by omega)]
    rcases hst : SpecModel.rounds block st n with ⟨a, b, c, d, e⟩
    simp only [sha1_smol.roundStep, SpecModel.rounds, hst, sha1_smol.roundFK,
      SpecModel.f, SpecModel.k]
    rw [buildW_getD block n (by omega)]
    split_ifs <;> rfl

/-- The block compression of the source equals the spec-side description. -/
theorem processBlock_eq (h block : List Nat) :
    sha1_smol.processBlock h block = SpecModel.processBlock h block := by
  simp only [sha1_smol.processBlock, SpecModel.processBlock]
  rw [rounds_eq block _ 80 (by omega)]

/-- The finalization of the source equals the spec-side description:
`0x80`, zero padding to 56 mod 64, big-endian bit length, block-wise
processing, big-endian serialization. -/
theorem digest_bytes_eq (s : sha1_smol.Sha1) :
    s.digest.bytes = SpecModel.digestBytes s := by
  have hklt : SpecModel.padCount (s.buffer.length + 1) < 64 := by
    unfold SpecModel.padCount; omega
  have hpad := sha1_smol.padGo_eq (SpecModel.padCount (s.buffer.length + 1)) 64
    (s.buffer ++ [0x80])
    (by simp [SpecModel.padCount, List.length_append]) (by omega)
  simp only [sha1_smol.Sha1.digest, sha1_smol.Sha1Digest.bytes]
  rw [hpad, sha1_smol.processRemGo_eq_chunks _ _ _ (Nat.le_refl _)]
  simp only [SpecModel.digestBytes, List.append_assoc]

/-- Serializing a list of words with `be32` and concatenating yields four
bytes per word. -/
theorem map_be32_flatten_length (l : List Nat) :
    ((l.map sha1_smol.be32).flatten).length = 4 * l.length := by
  induction l with
  | nil => rfl
  | cons x xs ih =>
    simp only [List.map_cons, List.flatten_cons, List.length_append, ih, sha1_smol.be32,
      List.length_cons, List.length_nil]
    omega

/-- A digest whose state has five words serializes to exactly twenty bytes. -/
theorem digest_bytes_length (s : sha1_smol.Sha1) (hh : s.h.length = 5) :
    s.digest.bytes.length = 20 := by
  have h5 : s.digest.h.length = 5 := sha1_smol.processRemGo_length _ _ _ hh
  show ((s.digest.h.map sha1_smol.be32).flatten).length = 20
  rw [map_be32_flatten_length, h5]

/-- Every byte produced by `be32` is below 256. -/
theorem be32_lt (v : Nat) : ∀ b ∈ sha1_smol.be32 v, b < 256 := by
  intro b hb
  simp only [sha1_smol.be32, List.mem_cons, List.not_mem_nil, or_false] at hb
  rcases hb with rfl | rfl | rfl | rfl <;> exact Nat.mod_lt _ (by omega)

/-- The hexadecimal rendering of a byte list has two characters per byte. -/
theorem hexEncode_length (bytes : List Nat) : (hexEncode bytes).length = 2 * bytes.length := by
  show ((bytes.map _).flatten).length = 2 * bytes.length
  induction bytes with
  | nil => rfl
  | cons b bs ih =>
    simp only [List.map_cons, List.flatten_cons, List.length_append, List.length_cons,
      List.length_nil, ih]
    omega

/-- Looking anything up in the nibble table lands inside the table. -/
theorem hexChars_getD_mem (n : Nat) : hexChars.getD n '0' ∈ hexChars := by
  by_cases hn : n < hexChars.length
  · rw [List.getD_eq_getElem _ _ hn]
    exact List.getElem_mem hn
  · rw [List.getD_eq_default _ _ (by omega)]
    decide

/-- Every character of a hexadecimal rendering is a lowercase hex digit. -/
theorem hexEncode_mem (bytes : List Nat) : ∀ c ∈ (hexEncode bytes).data, c ∈ hexChars := by
  intro c hc
  have hc' : c ∈ (bytes.map
      (fun b => [hexChars.getD (b / 16) '0', hexChars.getD (b % 16) '0'])).flatten := hc
  rw [List.mem_flatten] at hc'
  obtain ⟨l, hl, hcl⟩ := hc'
  rw [List.mem_map] at hl
  obtain ⟨b, _, rfl⟩ := hl
  simp only [List.mem_cons, List.not_mem_nil, or_false] at hcl
  rcases hcl with rfl | rfl <;> exact hexChars_getD_mem _

/-- Converting a small scalar value to a character and back is the identity. -/
theorem toNat_ofNat_small (n : Nat) (hn : n < 55296) : (Char.ofNat n).toNat = n := by
  rw [Char.ofNat, dif_pos (Or.inl (by omega))]
  rfl

/-- ASCII lowercasing is idempotent on characters. -/
theorem lowerChar_idem (c : Char) : lowerChar (lowerChar c) = lowerChar c := by
  by_cases hc : 65 ≤ c.toNat ∧ c.toNat ≤ 90
  · have h1 : lowerChar c = Char.ofNat (c.toNat + 32) := by
      unfold lowerChar
      rw [if_pos hc]
    have h2 : (Char.ofNat (c.toNat + 32)).toNat = c.toNat + 32 :=
      toNat_ofNat_small _ (by omega)
    rw [h1]
    unfold lowerChar
    rw [if_neg (by omega)]
  · have h1 : lowerChar c = c := by
      unfold lowerChar
      rw [if_neg hc]
    rw [h1, h1]

/-- ASCII lowercasing is idempotent on strings. -/
theorem lowerStr_idem (s : String) : lowerStr (lowerStr s) = lowerStr s := by
  unfold lowerStr
  simp only [List.map_map]
  congr 1
  exact List.map_congr_left fun c _ => lowerChar_idem c

/-- Claim C1: for every 64-byte block, the block compression performed by the
engine follows the SHA-1 schedule exactly — big-endian word split, extension
to eighty words by `rotateLeft(w[i-3] xor w[i-8] xor w[i-14] xor w[i-16], 1)`,
eighty rounds with the four `(f, k)` range selections and the wrapping
`temp = rotateLeft(a,5) + f + e + k + w[i]` shift, and the final wrapping
addition of `a,b,c,d,e` into the five state words in order.  Proved for
every state and every block, hence in particular for 64-byte blocks. -/
theorem c1_block_compression_follows_sha1_schedule (h block : List Nat) :
    sha1_smol.processBlock h block = SpecModel.processBlock h block :=
  processBlock_eq h block

/-- Claim C2: the create/feed/finalize pipeline reproduces the standard SHA-1
known-answer vectors for the empty input and for `"abc"`. -/
theorem c2_known_answer_vectors :
    hashBytesSha1 [] = Except.ok "da39a3ee5e6b4b0d3255bfef95601890afd80709" ∧
    hashBytesSha1 [97, 98, 99] = Except.ok "a9993e364706816aba3e25717850c26c9cd0d89d" :=
  ⟨rfl, rfl⟩

/-- Claim C3: feeding the pieces of any partition of `x` in order via
separate `feed` calls and then finalizing yields the same digest as a single
`feed` of `x` followed by finalize. -/
theorem c3_chunk_invariance (pieces : List (List Nat)) (x : List Nat)
    (hx : pieces.flatten = x) :
    (pieces.foldl sha1_smol.Sha1.update sha1_smol.Sha1.new).digest.bytes
      = (sha1_smol.Sha1.new.update x).digest.bytes := by
  subst hx
  cases pieces with
  | nil => rfl
  | cons p ps =>
    simp only [List.foldl_cons, List.flatten_cons]
    rw [sha1_smol.foldl_update_eq]

/-- Witness for claim C3 at the concrete partition `[[97], [98, 99]]` of
`[97, 98, 99]`. -/
theorem c3_chunk_invariance_witness :
    ([[97], [98, 99]] : List (List Nat)).flatten = [97, 98, 99] ∧
    (([[97], [98, 99]] : List (List Nat)).foldl sha1_smol.Sha1.update
        sha1_smol.Sha1.new).digest.bytes
      = (sha1_smol.Sha1.new.update [97, 98, 99]).digest.bytes :=
  ⟨rfl, c3_chunk_invariance [[97], [98, 99]] [97, 98, 99] rfl⟩

/-- Claim C4: finalize pads with `0x80`, zeros to 56 mod 64 and the
big-endian 64-bit bit length, processes the result as consecutive 64-byte
blocks, and returns the five state words serialized big-endian and
concatenated — 20 bytes whenever the state has its five words. -/
theorem c4_finalize_padding_and_serialization (s : sha1_smol.Sha1) :
    s.digest.bytes = SpecModel.digestBytes s ∧
    (s.h.length = 5 → s.digest.bytes.length = 20) :=
  ⟨digest_bytes_eq s, fun hh => digest_bytes_length s hh⟩

/-- Witness for claim C4 at the fresh engine state. -/
theorem c4_finalize_padding_and_serialization_witness :
    sha1_smol.Sha1.new.digest.bytes = SpecModel.digestBytes sha1_smol.Sha1.new ∧
    sha1_smol.Sha1.new.digest.bytes.length = 20 :=
  ⟨(c4_finalize_padding_and_serialization sha1_smol.Sha1.new).1,
    (c4_finalize_padding_and_serialization sha1_smol.Sha1.new).2 rfl⟩

/-- Claim C5: the byte counter is a wrapping 64-bit counter of total bytes
fed, and the bit length computed at finalization equals total bytes times 8
modulo `2 ^ 64`, for every sequence of feed calls (of unbounded total size). -/
theorem c5_length_counter_wraparound (ds : List (List Nat)) :
    (ds.foldl sha1_smol.Sha1.update sha1_smol.Sha1.new).len
        = (ds.map List.length).sum % 2 ^ 64 ∧
    (ds.foldl sha1_smol.Sha1.update sha1_smol.Sha1.new).len * 8 % 2 ^ 64
        = (ds.map List.length).sum * 8 % 2 ^ 64 := by
  have h1 := sha1_smol.foldl_update_len ds sha1_smol.Sha1.new
    (by show (0 : Nat) < 2 ^ 64; positivity)
  rw [show sha1_smol.Sha1.new.len = 0 from rfl, Nat.zero_add] at h1
  refine ⟨h1, ?_⟩
  rw [h1, Nat.mul_mod, Nat.mod_mod_of_dvd _ (dvd_refl _), ← Nat.mul_mod]

/-- Claim C6, counterexample: feeding 128 bytes into a fresh engine, the
engine state immediately after the first block-processing step of the drain
loop (one loop iteration, rendered by fuel 1) still holds 64 pending bytes,
not fewer than 64. -/
theorem c6_counterexample :
    ¬ ((sha1_smol.drainGo 1 sha1_smol.Sha1.new.h (List.replicate 128 0)).2.length < 64) := by
  decide

/-- Claim C6, amended: after the block-processing loop of a feed call
completes, the pending buffer holds strictly fewer than 64 bytes (and the
processing loop of finalize runs until the buffer is empty by its loop
condition). -/
theorem c6_amended_buffer_lt_after_processing (s : sha1_smol.Sha1) (data : List Nat) :
    (s.update data).buffer.length < 64 :=
  sha1_smol.drain_snd_lt s.h (s.buffer ++ data)

/-- Claim C7: the engine has no failure modes — hashing any byte sequence
(including the empty one) produces an `Ok` result, and the pending buffer
length lies in `[0, 63]` whenever a feed call returns. -/
theorem c7_no_failure_modes (s : sha1_smol.Sha1) (data : List Nat) :
    (∃ out, hashBytesSha1 data = Except.ok out) ∧
    0 ≤ (s.update data).buffer.length ∧ (s.update data).buffer.length ≤ 63 := by
  refine ⟨⟨_, rfl⟩, Nat.zero_le _, ?_⟩
  have hlt := sha1_smol.drain_snd_lt s.h (s.buffer ++ data)
  show (sha1_smol.drain s.h (s.buffer ++ data)).2.length ≤ 63
  omega

/-- Claim C8: the composition finalize(feed(create(), x)) is deterministic —
any two runs on identical input produce identical digests. -/
theorem c8_determinism (x d₁ d₂ : List Nat)
    (h₁ : d₁ = (sha1_smol.Sha1.new.update x).digest.bytes)
    (h₂ : d₂ = (sha1_smol.Sha1.new.update x).digest.bytes) : d₁ = d₂ :=
  h₁.trans h₂.symm

/-- Witness for claim C8 at the concrete input `[97]`. -/
theorem c8_determinism_witness :
    (sha1_smol.Sha1.new.update [97]).digest.bytes
      = (sha1_smol.Sha1.new.update [97]).digest.bytes :=
  c8_determinism [97] _ _ rfl rfl

/-- Claim C9: for every input, the digest is exactly 20 bytes and the string
produced by the `hash_bytes` SHA-1 arm is exactly 40 lowercase hexadecimal
characters. -/
theorem c9_output_size (data : List Nat) :
    (sha1_smol.Sha1.new.update data).digest.bytes.length = 20 ∧
    ∃ out, hashBytesSha1 data = Except.ok out ∧ out.length = 40 ∧
      ∀ c ∈ out.data, c ∈ hexChars := by
  have h5 : (sha1_smol.Sha1.new.update data).h.length = 5 :=
    sha1_smol.drain_fst_length _ _ rfl
  have h20 := digest_bytes_length _ h5
  refine ⟨h20, hexEncode _, rfl, ?_, hexEncode_mem _⟩
  rw [hexEncode_length, h20]

/-- Claim C10: `Algorithm::from_str` round-trips with `Algorithm::name`, and
is case-insensitive because it lowercases its input before matching: the
algorithm recognized (the `Ok` outcome, via `Except.toOption`) is unchanged
by lowercasing the input first.  Only the payload of the error case keeps
the original spelling, as in the source. -/
theorem c10_name_roundtrip_case_insensitive :
    (∀ a : Algorithm, Algorithm.fromStr a.name = Except.ok a) ∧
    (∀ s : String, (Algorithm.fromStr s).toOption
      = (Algorithm.fromStr (lowerStr s)).toOption) := by
  constructor
  · intro a
    cases a <;> rfl
  · intro s
    unfold Algorithm.fromStr
    rw [lowerStr_idem]
    split <;> rfl
